import Mathlib

/-!
Verification of the letter-trie library (`src/base_letter_trie.rs`,
`src/no_parent_letter_trie.rs`, `src/lib.rs`).

Embedding conventions:

* A `BaseLetterTrie` owns only its root node, so a trie is represented by its
  root `Node`.  `Rc<RefCell<Node>>` / in-place mutation is modelled by pure
  functions returning the updated node.
* `children: BTreeMap<char, ChildLink>` is modelled as an association list
  `List (Char × Node)` kept sorted by key: `btreeGet` is `BTreeMap::get`
  and `btreeInsert` is `BTreeMap::insert` (insert-or-replace, preserving
  key order, which is also the map's iteration order).
* The `parent: Option<ParentLink>` back-reference cannot live inside a purely
  functional tree.  Its only observable use is `Node::prefix`, which climbs
  the parent chain collecting each node's character (the root, having no
  parent, contributes the empty string).  Every constructor of the library
  keeps the invariant that a node's parent link designates the node that owns
  it in some `children` map (`make_child_node_and_link` receives the real
  parent; `merge` re-points the adopted children at the target root), so the
  parent chain of a node spells exactly the characters on the path from the
  root to the node.  Functions that need `Node::prefix` therefore carry the
  path walked so far as an explicit `path` argument.
* Word and prefix strings: every public entry point first applies
  `s.trim()` / `s.to_lowercase().chars().collect()`, a transform the spec
  declares out of scope ("a pure, already-solved transform of String →
  sequence of characters").  All definitions and theorems below quantify over
  the resulting character vectors (`List Char`); each entry point applies the
  identical transform, so nothing is lost by comparing the functions at the
  vector level.
* `Option::unwrap` on the cached aggregates (read only while `is_frozen`)
  panics when a frozen node has no cache.  The panic is modelled by the junk
  value of `Option.getD 0`; every state reachable through the library's API
  keeps the caches populated while frozen (proved below for the states the
  theorems touch), so no theorem depends on the junk value.
* `debug_assert!` is compiled out in release builds; the model reproduces the
  release behaviour and ignores the asserts (this matters only for
  `add_word` on a frozen trie, see claim C2).
-/

/-- One vertex of `BaseLetterTrie`: struct `Node` of `base_letter_trie.rs`
(fields `c`, `depth`, `is_word`, `is_frozen`, `node_count`, `word_count`,
`height`, `children`; the cache fields are suffixed `_cache` here to leave
the source's method names `node_count` etc. free, and the non-owning
`parent` link is represented by the path arguments described above). -/
inductive Node : Type where
  | mk (c : Char) (depth : Nat) (is_word : Bool) (is_frozen : Bool)
       (node_count_cache word_count_cache height_cache : Option Nat)
       (children : List (Char × Node)) : Node

/-- Field accessor for `Node.c`. -/
def Node.c : Node → Char
  | .mk c _ _ _ _ _ _ _ => c

/-- Field accessor for `Node.depth`. -/
def Node.depth : Node → Nat
  | .mk _ d _ _ _ _ _ _ => d

/-- Field accessor for `Node.is_word`. -/
def Node.is_word : Node → Bool
  | .mk _ _ w _ _ _ _ _ => w

/-- Field accessor for `Node.is_frozen`. -/
def Node.is_frozen : Node → Bool
  | .mk _ _ _ froz _ _ _ _ => froz

/-- Field accessor for the cached `node_count`. -/
def Node.node_count_cache : Node → Option Nat
  | .mk _ _ _ _ nc _ _ _ => nc

/-- Field accessor for the cached `word_count`. -/
def Node.word_count_cache : Node → Option Nat
  | .mk _ _ _ _ _ wc _ _ => wc

/-- Field accessor for the cached `height`. -/
def Node.height_cache : Node → Option Nat
  | .mk _ _ _ _ _ _ ht _ => ht

/-- Field accessor for `Node.children`. -/
def Node.children : Node → List (Char × Node)
  | .mk _ _ _ _ _ _ _ ch => ch

/-- Replace the `children` field, keeping every other field (models an
in-place mutation of the `children` map through the `RefCell`). -/
def Node.withChildren : Node → List (Char × Node) → Node
  | .mk c d w froz nc wc ht _, ch => .mk c d w froz nc wc ht ch

/-- Set `is_word` to `true`, keeping every other field (models
`child_node.is_word = true;`). -/
def Node.setWord : Node → Node
  | .mk c d _ froz nc wc ht ch => .mk c d true froz nc wc ht ch

/-- Lookup in the sorted association list modelling
`BTreeMap::<char, _>::get`. -/
def btreeGet {α : Type} (c : Char) : List (Char × α) → Option α
  | [] => none
  | (c', n) :: t => if c = c' then some n else btreeGet c t

/-- Insert-or-replace in the sorted association list, modelling
`BTreeMap::<char, _>::insert`: the entry is placed at its key
position and an existing entry with the same key is replaced. -/
def btreeInsert {α : Type} (c : Char) (n : α) : List (Char × α) → List (Char × α)
  | [] => [(c, n)]
  | (c', n') :: t =>
    if c < c' then (c, n) :: (c', n') :: t
    else if c = c' then (c, n) :: t
    else (c', n') :: btreeInsert c n t

/-- Constructor `BaseLetterTrie::make_child_node_and_link`: a fresh node with
the given character, depth and word flag, no children, unfrozen, empty
caches.  (The `parent` argument sets the back-reference, represented here by
the path at which the node is hung into the tree.) -/
def Node.make (c : Char) (depth : Nat) (is_word : Bool) : Node :=
  .mk c depth is_word false none none none []

/-- Constructor `BaseLetterTrie::new`: the root node carries the sentinel
character `' '`, depth 0 and no word flag. -/
def BaseLetterTrie.new : Node :=
  Node.make ' ' 0 false

/-- Function `BaseLetterTrie::add_from_vec_chars_one_char`, called once per
character of the word being added.  The Rust function walks `v` through the
indices `char_index < v_len`; here the argument is the remaining suffix
`v.drop char_index`, so `char_index < v_len` becomes "the suffix is
nonempty", `v[char_index]` is its head and `char_index == v_len - 1` is
"the tail is empty".  An existing child for the current character is marked
as a word end when the character is the last one and then receives the rest
of the word; a missing child is created (depth one below the current node)
and receives the rest of the word before being inserted into the map. -/
def BaseLetterTrie.add_from_vec_chars_one_char (rc : Node) : List Char → Node
  | [] => rc
  | ch :: rest =>
    let is_word := rest.isEmpty
    match btreeGet ch rc.children with
    | some child_node_link =>
      let child := if is_word then child_node_link.setWord else child_node_link
      rc.withChildren (btreeInsert ch
        (BaseLetterTrie.add_from_vec_chars_one_char child rest) rc.children)
    | none =>
      let new_child_link := Node.make ch (rc.depth + 1) is_word
      rc.withChildren (btreeInsert ch
        (BaseLetterTrie.add_from_vec_chars_one_char new_child_link rest) rc.children)

/-- Function `BaseLetterTrie::add_from_vec_chars` (called with
`(v, v.len(), 0)` by every caller): a guard for `v_len > 0` around the
per-character descent from the root. -/
def BaseLetterTrie.add_from_vec_chars (root : Node) (v : List Char) : Node :=
  if v.length > 0 then BaseLetterTrie.add_from_vec_chars_one_char root v else root

/-- Function `BaseLetterTrie::add_word` after the out-of-scope
trim/lowercase transform: an empty word is a no-op, otherwise the character
vector is added.  The `debug_assert!(!self.is_frozen())` is compiled out in
release builds and is not part of the model (claim C2). -/
def BaseLetterTrie.add_word (t : Node) (v : List Char) : Node :=
  if v.isEmpty then t else BaseLetterTrie.add_from_vec_chars t v

mutual

/-- Method `Node::node_count`: the cached value while frozen (`unwrap`
modelled by `getD 0`, see the header), otherwise one plus the live sum over
the children. -/
def Node.node_count : Node → Nat
  | .mk _ _ _ froz nc _ _ ch =>
    if froz then nc.getD 0
    else 1 + nodeCountChildren ch

/-- Sum of `Node::node_count` over the values of a children map (the
`children.values().map(...).sum()` of the source). -/
def nodeCountChildren : List (Char × Node) → Nat
  | [] => 0
  | (_, n) :: t => n.node_count + nodeCountChildren t

end

mutual

/-- Method `Node::word_count`: the cached value while frozen, otherwise the
word flag plus the live sum over the children. -/
def Node.word_count : Node → Nat
  | .mk _ _ w froz _ wc _ ch =>
    if froz then wc.getD 0
    else (if w then 1 else 0) + wordCountChildren ch

/-- Sum of `Node::word_count` over the values of a children map. -/
def wordCountChildren : List (Char × Node) → Nat
  | [] => 0
  | (_, n) :: t => n.word_count + wordCountChildren t

end

mutual

/-- Method `Node::height`: the cached value while frozen, otherwise one plus
the maximum height of the children (`max().unwrap_or(0)` is 0 for a leaf). -/
def Node.height : Node → Nat
  | .mk _ _ _ froz _ _ ht ch =>
    if froz then ht.getD 0
    else maxHeightChildren ch + 1

/-- Maximum of `Node::height` over the values of a children map, 0 when the
map is empty (`children.values().map(...).max().unwrap_or(0)`). -/
def maxHeightChildren : List (Char × Node) → Nat
  | [] => 0
  | (_, n) :: t => max n.height (maxHeightChildren t)

end

/-- Struct `FixedNode` of `lib.rs`: a by-value snapshot of one node.  The
source field `prefix` is renamed `prefix_str` (`prefix` is a Lean keyword). -/
structure FixedNode : Type where
  c : Char
  prefix_str : String
  depth : Nat
  is_word : Bool
  child_count : Nat
  node_count : Nat
  word_count : Nat
  height : Nat
deriving DecidableEq, Repr

/-- Method `Node::to_fixed_node`.  `self.prefix()` climbs the parent chain;
under the parent invariant (header) it returns exactly the characters of the
`path` from the root to this node, supplied here explicitly. -/
def Node.to_fixed_node (n : Node) (path : List Char) : FixedNode :=
  { c := n.c
    prefix_str := String.mk path
    depth := n.depth
    is_word := n.is_word
    child_count := n.children.length
    node_count := n.node_count
    word_count := n.word_count
    height := n.height }

/-- Method `Node::find_child`.  The Rust function receives
`(prefix, prefix_len, prefix_index)`; here `ps` is the remaining suffix
`prefix.drop prefix_index` (so `prefix_index >= prefix_len` is "`ps` is
empty" and `prefix_index == prefix_len - 1` is "the tail of `ps` is empty")
and `path` is the prefix walked so far, `prefix.take prefix_index`,
standing for the parent chain of the current node. -/
def Node.find_child (n : Node) : List Char → List Char → Option FixedNode
  | [], _ => none
  | ch :: rest, path =>
    match btreeGet ch n.children with
    | some child_rc =>
      if rest.isEmpty then some (child_rc.to_fixed_node (path ++ [ch]))
      else child_rc.find_child rest (path ++ [ch])
    | none => none

/-- Method `Node::is_word_child`: same walk as `find_child` but only the
terminal node's `is_word` flag is returned, `false` on a missing child or an
exhausted prefix. -/
def Node.is_word_child (n : Node) : List Char → Bool
  | [] => false
  | ch :: rest =>
    match btreeGet ch n.children with
    | some child_rc =>
      if rest.isEmpty then child_rc.is_word
      else child_rc.is_word_child rest
    | none => false

/-- Method `BaseLetterTrie::find` (also `LetterTrie::find` for this type):
recursive descent from the root with the whole prefix vector. -/
def BaseLetterTrie.find (t : Node) (v : List Char) : Option FixedNode :=
  t.find_child v []

/-- Method `BaseLetterTrie::is_word_recursive`. -/
def BaseLetterTrie.is_word_recursive (t : Node) (v : List Char) : Bool :=
  t.is_word_child v

/-- Body of the `loop` of `BaseLetterTrie::find_loop`, one call per
iteration.  The loop state is the current node `rc` and `prefix_index`; `ps`
is the remaining suffix and `path` the consumed prefix (the parent chain of
`rc`).  The loop's `prefix_index > prefix_len` arm is unreachable (the index
starts at 0 and the `== prefix_len` arm returns first), so the two return
arms are: prefix exhausted — a snapshot of the current node if it is a word
end, otherwise `None`; next character — descend or return `None`. -/
def BaseLetterTrie.find_loop_go (rc : Node) : List Char → List Char → Option FixedNode
  | [], path => if rc.is_word then some (rc.to_fixed_node path) else none
  | ch :: rest, path =>
    match btreeGet ch rc.children with
    | some rc_next => BaseLetterTrie.find_loop_go rc_next rest (path ++ [ch])
    | none => none

/-- Method `BaseLetterTrie::find_loop`: the iterative form of `find`,
starting from the root at index 0. -/
def BaseLetterTrie.find_loop (t : Node) (v : List Char) : Option FixedNode :=
  BaseLetterTrie.find_loop_go t v []

/-- Body of the `loop` of `BaseLetterTrie::is_word_loop`, one call per
iteration (same loop state as `find_loop_go`; the `prefix_index >
prefix_len` arm is likewise unreachable). -/
def BaseLetterTrie.is_word_loop_go (rc : Node) : List Char → Bool
  | [] => rc.is_word
  | ch :: rest =>
    match btreeGet ch rc.children with
    | some rc_next => BaseLetterTrie.is_word_loop_go rc_next rest
    | none => false

/-- Method `BaseLetterTrie::is_word_loop`: the iterative form of
`is_word_recursive`. -/
def BaseLetterTrie.is_word_loop (t : Node) (v : List Char) : Bool :=
  BaseLetterTrie.is_word_loop_go t v

/-- Sum of the cached `node_count` fields over a children map
(`child_node.node_count.unwrap()` accumulated by the loop of
`Node::freeze`; `unwrap` modelled by `getD 0`, see the header). -/
def sumNodeCaches : List (Char × Node) → Nat
  | [] => 0
  | (_, n) :: t => n.node_count_cache.getD 0 + sumNodeCaches t

/-- Sum of the cached `word_count` fields over a children map. -/
def sumWordCaches : List (Char × Node) → Nat
  | [] => 0
  | (_, n) :: t => n.word_count_cache.getD 0 + sumWordCaches t

/-- Maximum of the cached `height` fields over a children map
(`cmp::max` accumulated from 0 by the loop of `Node::freeze`). -/
def maxHeightCaches : List (Char × Node) → Nat
  | [] => 0
  | (_, n) :: t => max (n.height_cache.getD 0) (maxHeightCaches t)

mutual

/-- Method `Node::freeze`: a no-op on a frozen node; otherwise every child
is frozen first, the three aggregates are accumulated from the children's
freshly written caches, the node's caches are written and the node is marked
frozen.  (The single Rust loop accumulates all three aggregates at once;
the three sums/maxima over the frozen children are written separately here,
which computes the same values.) -/
def Node.freeze : Node → Node
  | .mk c d w froz nc wc ht ch =>
    if froz then .mk c d w froz nc wc ht ch
    else
      let ch' := freezeChildren ch
      .mk c d w true
        (some (1 + sumNodeCaches ch'))
        (some ((if w then 1 else 0) + sumWordCaches ch'))
        (some (maxHeightCaches ch' + 1)) ch'

/-- The `for mut child_node in self.children.values_mut()` loop of
`Node::freeze`: freeze every child in place. -/
def freezeChildren : List (Char × Node) → List (Char × Node)
  | [] => []
  | (c, n) :: t => (c, n.freeze) :: freezeChildren t

end

mutual

/-- Method `Node::unfreeze`: a no-op on an unfrozen node; otherwise every
child is unfrozen, the caches are cleared and the frozen flag dropped. -/
def Node.unfreeze : Node → Node
  | .mk c d w froz nc wc ht ch =>
    if froz then .mk c d w false none none none (unfreezeChildren ch)
    else .mk c d w froz nc wc ht ch

/-- The child loop of `Node::unfreeze`. -/
def unfreezeChildren : List (Char × Node) → List (Char × Node)
  | [] => []
  | (c, n) :: t => (c, n.unfreeze) :: unfreezeChildren t

end

/-- Trie-level `BaseLetterTrie::freeze` (delegates to the root). -/
def BaseLetterTrie.freeze (t : Node) : Node :=
  t.freeze

/-- Trie-level `BaseLetterTrie::unfreeze` (delegates to the root). -/
def BaseLetterTrie.unfreeze (t : Node) : Node :=
  t.unfreeze

/-- The loop of `BaseLetterTrie::merge`: every first-level child of the
other trie's root is inserted into this root's children map under the
child's own character `other_child_node.c` (the `insert` of `BTreeMap`
replaces an existing entry with the same key).  The loop also re-points the
adopted child's parent link at the target root; both roots have an empty
prefix, so the adopted subtree's parent chains keep spelling the paths from
the (new) root and the path-based prefix model is unchanged. -/
def mergeChildren (this_children : List (Char × Node)) :
    List (Char × Node) → List (Char × Node)
  | [] => this_children
  | (_, other_child) :: rest =>
    mergeChildren (btreeInsert other_child.c other_child this_children) rest

/-- Method `BaseLetterTrie::merge`: fold the other root's children (in map
iteration order, i.e. ascending key order) into this root's children map. -/
def BaseLetterTrie.merge (t other : Node) : Node :=
  t.withChildren (mergeChildren t.children other.children)

/-- Method `BaseLetterTrie::load_continuous`, after the out-of-scope file
layer: `lines` is the list of lines of the file, trimmed, with empty lines
dropped, lowercased and turned into character vectors; each is added to the
trie in order. -/
def BaseLetterTrie.load_continuous (t : Node) (lines : List (List Char)) : Node :=
  lines.foldl (fun acc vec_char => BaseLetterTrie.add_from_vec_chars acc vec_char) t

/-- The partition loop of `BaseLetterTrie::load_continuous_parallel_sorted`:
`prev_c` and `this_vec` are the loop state (initially `' '` and empty);
whenever a line's first character `vec_char[0]` (modelled by `headD ' '`;
the file layer only yields nonempty lines) differs from `prev_c`, the
current group is handed to a build thread — `create_thread_for_part_of_vec`
spawns nothing for an empty group — and a new group starts; the final group
is handed off after the loop.  The returned list holds the nonempty groups
in spawn order. -/
def partitionGroupsGo (prev_c : Char) (this_vec : List (List Char)) :
    List (List Char) → List (List (List Char))
  | [] => if this_vec.isEmpty then [] else [this_vec]
  | vec_char :: rest =>
    let this_c := vec_char.headD ' '
    if this_c ≠ prev_c then
      if this_vec.isEmpty then partitionGroupsGo this_c [vec_char] rest
      else this_vec :: partitionGroupsGo this_c [vec_char] rest
    else partitionGroupsGo prev_c (this_vec ++ [vec_char]) rest

/-- The groups spawned by the partition loop of
`load_continuous_parallel_sorted`, in spawn order. -/
def partitionGroups (lines : List (List Char)) : List (List (List Char)) :=
  partitionGroupsGo ' ' [] lines

/-- The thread body of `BaseLetterTrie::create_thread_for_part_of_vec`: a
standalone sub-trie is built from the group's words, starting from a fresh
root, and sent back over the results channel. -/
def BaseLetterTrie.create_thread_for_part_of_vec (v : List (List Char)) : Node :=
  v.foldl (fun t vec_char => BaseLetterTrie.add_from_vec_chars t vec_char) BaseLetterTrie.new

/-- Method `BaseLetterTrie::load_continuous_parallel_sorted`: partition the
lines by runs of equal first characters, build one standalone sub-trie per
group, and merge each completed sub-trie into this trie.  The channel
delivers the sub-tries in a nondeterministic order; the model merges them in
spawn order (per the spec, merge order does not affect the result when the
partitions are disjoint, which is the hypothesis of claim C5). -/
def BaseLetterTrie.load_continuous_parallel_sorted (t : Node)
    (lines : List (List Char)) : Node :=
  ((partitionGroups lines).map BaseLetterTrie.create_thread_for_part_of_vec).foldl
    BaseLetterTrie.merge t

/-- Struct `NoParentLetterTrie` of `no_parent_letter_trie.rs`: the
stripped-down variant whose nodes own their children directly, with no
parent links, no freezing and no caches. -/
inductive NoParentLetterTrie : Type where
  | mk (c : Char) (depth : Nat) (children : List (Char × NoParentLetterTrie))
       (is_word : Bool) : NoParentLetterTrie

/-- Field accessor for `NoParentLetterTrie.c`. -/
def NoParentLetterTrie.c : NoParentLetterTrie → Char
  | .mk c _ _ _ => c

/-- Field accessor for `NoParentLetterTrie.depth`. -/
def NoParentLetterTrie.depth : NoParentLetterTrie → Nat
  | .mk _ d _ _ => d

/-- Field accessor for `NoParentLetterTrie.children`. -/
def NoParentLetterTrie.children : NoParentLetterTrie → List (Char × NoParentLetterTrie)
  | .mk _ _ ch _ => ch

/-- Field accessor for `NoParentLetterTrie.is_word`. -/
def NoParentLetterTrie.is_word : NoParentLetterTrie → Bool
  | .mk _ _ _ w => w

/-- Constructor `NoParentLetterTrie::make_node`. -/
def NoParentLetterTrie.make_node (c : Char) (depth : Nat) (is_word : Bool) :
    NoParentLetterTrie :=
  .mk c depth [] is_word

/-- Constructor `NoParentLetterTrie::new`: the same sentinel root as the
base trie. -/
def NoParentLetterTrie.new : NoParentLetterTrie :=
  NoParentLetterTrie.make_node ' ' 0 false

mutual

/-- Method `NoParentLetterTrie::node_count` (always computed live; this
variant has no caches). -/
def NoParentLetterTrie.node_count : NoParentLetterTrie → Nat
  | .mk _ _ ch _ => 1 + npNodeCountChildren ch

/-- The child loop of `NoParentLetterTrie::node_count`. -/
def npNodeCountChildren : List (Char × NoParentLetterTrie) → Nat
  | [] => 0
  | (_, n) :: t => n.node_count + npNodeCountChildren t

end

mutual

/-- Method `NoParentLetterTrie::word_count`. -/
def NoParentLetterTrie.word_count : NoParentLetterTrie → Nat
  | .mk _ _ ch w => (if w then 1 else 0) + npWordCountChildren ch

/-- The child loop of `NoParentLetterTrie::word_count`. -/
def npWordCountChildren : List (Char × NoParentLetterTrie) → Nat
  | [] => 0
  | (_, n) :: t => n.word_count + npWordCountChildren t

end

mutual

/-- Method `NoParentLetterTrie::height`. -/
def NoParentLetterTrie.height : NoParentLetterTrie → Nat
  | .mk _ _ ch _ => npMaxHeightChildren ch + 1

/-- The child loop of `NoParentLetterTrie::height`. -/
def npMaxHeightChildren : List (Char × NoParentLetterTrie) → Nat
  | [] => 0
  | (_, n) :: t => max n.height (npMaxHeightChildren t)

end

/-- Method `NoParentLetterTrie::to_fixed_node`: this variant has no parent
links, so `NoParentLetterTrie::prefix` returns the empty string and the
snapshot's prefix field is always `""`. -/
def NoParentLetterTrie.to_fixed_node (n : NoParentLetterTrie) : FixedNode :=
  { c := n.c
    prefix_str := ""
    depth := n.depth
    is_word := n.is_word
    child_count := n.children.length
    node_count := n.node_count
    word_count := n.word_count
    height := n.height }

/-- Method `NoParentLetterTrie::find_child`: the same index-to-suffix
reading as `Node::find_child` (`ps` is `prefix.drop prefix_index`), without
any path accumulation since this variant's snapshots carry no prefix. -/
def NoParentLetterTrie.find_child (n : NoParentLetterTrie) :
    List Char → Option FixedNode
  | [] => none
  | ch :: rest =>
    match btreeGet ch n.children with
    | some child_node =>
      if rest.isEmpty then some child_node.to_fixed_node
      else child_node.find_child rest
    | none => none

/-- Method `NoParentLetterTrie::find` (`LetterTrie::find`): recursive
descent from the root. -/
def NoParentLetterTrie.find (t : NoParentLetterTrie) (v : List Char) :
    Option FixedNode :=
  t.find_child v

/-- Method `NoParentLetterTrie::is_word_child`. -/
def NoParentLetterTrie.is_word_child (n : NoParentLetterTrie) : List Char → Bool
  | [] => false
  | ch :: rest =>
    match btreeGet ch n.children with
    | some child_node =>
      if rest.isEmpty then child_node.is_word
      else child_node.is_word_child rest
    | none => false

/-- Method `NoParentLetterTrie::is_word_recursive`. -/
def NoParentLetterTrie.is_word_recursive (t : NoParentLetterTrie) (v : List Char) : Bool :=
  t.is_word_child v

/-! Basic lemmas about the embedding. -/

theorem Node.inductionOn (motive : Node → Prop)
    (h : ∀ (c : Char) (d : Nat) (w froz : Bool) (nc wc ht : Option Nat)
      (ch : List (Char × Node)),
      (∀ p ∈ ch, motive p.2) → motive (Node.mk c d w froz nc wc ht ch)) :
    ∀ n, motive n
  | .mk c d w froz nc wc ht ch =>
      h c d w froz nc wc ht ch (fun p hp =>
        Node.inductionOn motive h p.2)
termination_by n => sizeOf n
decreasing_by
  simp only [Node.mk.sizeOf_spec]
  have h1 : sizeOf p < sizeOf ch := List.sizeOf_lt_of_mem hp
  have h2 : sizeOf p.2 < sizeOf p := by
    obtain ⟨a, b⟩ := p
    simp
  omega

@[simp] theorem Node.c_mk (c d w froz nc wc ht ch) :
    (Node.mk c d w froz nc wc ht ch).c = c := rfl

@[simp] theorem Node.depth_mk (c d w froz nc wc ht ch) :
    (Node.mk c d w froz nc wc ht ch).depth = d := rfl

@[simp] theorem Node.is_word_mk (c d w froz nc wc ht ch) :
    (Node.mk c d w froz nc wc ht ch).is_word = w := rfl

@[simp] theorem Node.is_frozen_mk (c d w froz nc wc ht ch) :
    (Node.mk c d w froz nc wc ht ch).is_frozen = froz := rfl

@[simp] theorem Node.node_count_cache_mk (c d w froz nc wc ht ch) :
    (Node.mk c d w froz nc wc ht ch).node_count_cache = nc := rfl

@[simp] theorem Node.word_count_cache_mk (c d w froz nc wc ht ch) :
    (Node.mk c d w froz nc wc ht ch).word_count_cache = wc := rfl

@[simp] theorem Node.height_cache_mk (c d w froz nc wc ht ch) :
    (Node.mk c d w froz nc wc ht ch).height_cache = ht := rfl

@[simp] theorem Node.children_mk (c d w froz nc wc ht ch) :
    (Node.mk c d w froz nc wc ht ch).children = ch := rfl

@[simp] theorem Node.children_withChildren (t : Node) (l : List (Char × Node)) :
    (t.withChildren l).children = l := by
  cases t; rfl

@[simp] theorem Node.c_withChildren (t : Node) (l : List (Char × Node)) :
    (t.withChildren l).c = t.c := by
  cases t; rfl

@[simp] theorem Node.depth_withChildren (t : Node) (l : List (Char × Node)) :
    (t.withChildren l).depth = t.depth := by
  cases t; rfl

@[simp] theorem Node.is_word_withChildren (t : Node) (l : List (Char × Node)) :
    (t.withChildren l).is_word = t.is_word := by
  cases t; rfl

@[simp] theorem Node.is_frozen_withChildren (t : Node) (l : List (Char × Node)) :
    (t.withChildren l).is_frozen = t.is_frozen := by
  cases t; rfl

@[simp] theorem Node.node_count_cache_withChildren (t : Node) (l : List (Char × Node)) :
    (t.withChildren l).node_count_cache = t.node_count_cache := by
  cases t; rfl

@[simp] theorem Node.word_count_cache_withChildren (t : Node) (l : List (Char × Node)) :
    (t.withChildren l).word_count_cache = t.word_count_cache := by
  cases t; rfl

@[simp] theorem Node.height_cache_withChildren (t : Node) (l : List (Char × Node)) :
    (t.withChildren l).height_cache = t.height_cache := by
  cases t; rfl

@[simp] theorem Node.c_setWord (t : Node) : t.setWord.c = t.c := by
  cases t; rfl

@[simp] theorem Node.depth_setWord (t : Node) : t.setWord.depth = t.depth := by
  cases t; rfl

@[simp] theorem Node.is_word_setWord (t : Node) : t.setWord.is_word = true := by
  cases t; rfl

@[simp] theorem Node.children_setWord (t : Node) : t.setWord.children = t.children := by
  cases t; rfl

theorem Node.setWord_of_is_word (t : Node) (h : t.is_word = true) : t.setWord = t := by
  cases t with
  | mk c d w froz nc wc ht ch =>
    simp only [Node.is_word_mk] at h
    simp [Node.setWord, h]

theorem Node.ext_fields (m n : Node) (hc : m.c = n.c) (hd : m.depth = n.depth)
    (hw : m.is_word = n.is_word) (hf : m.is_frozen = n.is_frozen)
    (hnc : m.node_count_cache = n.node_count_cache)
    (hwc : m.word_count_cache = n.word_count_cache)
    (hht : m.height_cache = n.height_cache)
    (hch : m.children = n.children) : m = n := by
  cases m; cases n
  simp_all [Node.c, Node.depth, Node.is_word, Node.is_frozen, Node.node_count_cache,
    Node.word_count_cache, Node.height_cache, Node.children]

theorem Node.withChildren_withChildren (t : Node) (l l' : List (Char × Node)) :
    (t.withChildren l).withChildren l' = t.withChildren l' := by
  cases t; rfl

theorem Node.withChildren_self (t : Node) : t.withChildren t.children = t := by
  cases t; rfl

theorem btreeGet_insert_self {α : Type} (c : Char) (n : α) (l : List (Char × α)) :
    btreeGet c (btreeInsert c n l) = some n := by
  induction l with
  | nil => simp [btreeGet, btreeInsert]
  | cons p t ih =>
    obtain ⟨c', n'⟩ := p
    by_cases hlt : c < c'
    · simp [btreeInsert, hlt, btreeGet]
    · by_cases heq : c = c'
      · simp [btreeInsert, hlt, heq, btreeGet]
      · simp [btreeInsert, hlt, heq, btreeGet, ih]

theorem btreeGet_insert_ne {α : Type} {c c' : Char} (h : c ≠ c') (n : α)
    (l : List (Char × α)) :
    btreeGet c (btreeInsert c' n l) = btreeGet c l := by
  induction l with
  | nil => simp [btreeGet, btreeInsert, h]
  | cons p t ih =>
    obtain ⟨c'', n''⟩ := p
    by_cases hlt : c' < c''
    · simp [btreeInsert, hlt, btreeGet, h]
    · by_cases heq : c' = c''
      · subst heq
        simp [btreeInsert, hlt, btreeGet, h]
      · by_cases hc : c = c''
        · subst hc
          simp [btreeInsert, hlt, heq, btreeGet]
        · simp [btreeInsert, hlt, heq, btreeGet, hc, ih]

theorem btreeInsert_insert_self {α : Type} (c : Char) (x y : α) (l : List (Char × α)) :
    btreeInsert c x (btreeInsert c y l) = btreeInsert c x l := by
  induction l with
  | nil => simp [btreeInsert]
  | cons p t ih =>
    obtain ⟨c', n'⟩ := p
    by_cases hlt : c < c'
    · simp [btreeInsert, hlt]
    · by_cases heq : c = c'
      · simp [btreeInsert, hlt, heq]
      · simp [btreeInsert, hlt, heq, ih]

theorem btreeGet_eq_none_of_not_mem {α : Type} {c : Char} {l : List (Char × α)}
    (h : c ∉ l.map Prod.fst) : btreeGet c l = none := by
  induction l with
  | nil => rfl
  | cons p t ih =>
    obtain ⟨c', n'⟩ := p
    simp only [List.map_cons, List.mem_cons] at h
    push_neg at h
    simp [btreeGet, h.1, ih h.2]

/-- The update that `add_from_vec_chars_one_char` applies to the child slot
of the current character (a proof-side restatement of the two branches of
the source function's `match`). -/
def childUpdate (o : Option Node) (d : Nat) (ch : Char) (rest : List Char) : Node :=
  match o with
  | some child => BaseLetterTrie.add_from_vec_chars_one_char
      (if rest.isEmpty then child.setWord else child) rest
  | none => BaseLetterTrie.add_from_vec_chars_one_char
      (Node.make ch (d + 1) rest.isEmpty) rest

theorem one_char_cons (t : Node) (ch : Char) (rest : List Char) :
    BaseLetterTrie.add_from_vec_chars_one_char t (ch :: rest) =
    t.withChildren (btreeInsert ch
      (childUpdate (btreeGet ch t.children) t.depth ch rest) t.children) := by
  cases ho : btreeGet ch t.children with
  | some child =>
    simp [BaseLetterTrie.add_from_vec_chars_one_char, childUpdate, ho]
  | none =>
    simp [BaseLetterTrie.add_from_vec_chars_one_char, childUpdate, ho]

@[simp] theorem one_char_nil (t : Node) :
    BaseLetterTrie.add_from_vec_chars_one_char t [] = t := rfl

@[simp] theorem one_char_c (t : Node) (v : List Char) :
    (BaseLetterTrie.add_from_vec_chars_one_char t v).c = t.c := by
  cases v with
  | nil => rfl
  | cons ch rest => rw [one_char_cons]; simp

@[simp] theorem one_char_depth (t : Node) (v : List Char) :
    (BaseLetterTrie.add_from_vec_chars_one_char t v).depth = t.depth := by
  cases v with
  | nil => rfl
  | cons ch rest => rw [one_char_cons]; simp

@[simp] theorem one_char_is_word (t : Node) (v : List Char) :
    (BaseLetterTrie.add_from_vec_chars_one_char t v).is_word = t.is_word := by
  cases v with
  | nil => rfl
  | cons ch rest => rw [one_char_cons]; simp

@[simp] theorem one_char_is_frozen (t : Node) (v : List Char) :
    (BaseLetterTrie.add_from_vec_chars_one_char t v).is_frozen = t.is_frozen := by
  cases v with
  | nil => rfl
  | cons ch rest => rw [one_char_cons]; simp

theorem add_from_vec_chars_eq (t : Node) {v : List Char} (h : v ≠ []) :
    BaseLetterTrie.add_from_vec_chars t v =
    BaseLetterTrie.add_from_vec_chars_one_char t v := by
  have : 0 < v.length := List.length_pos.mpr h
  simp [BaseLetterTrie.add_from_vec_chars, this]

@[simp] theorem add_from_vec_chars_nil (t : Node) :
    BaseLetterTrie.add_from_vec_chars t [] = t := rfl

@[simp] theorem add_from_vec_chars_c (t : Node) (v : List Char) :
    (BaseLetterTrie.add_from_vec_chars t v).c = t.c := by
  cases v with
  | nil => rfl
  | cons ch rest => rw [add_from_vec_chars_eq t (by simp)]; simp

@[simp] theorem add_from_vec_chars_depth (t : Node) (v : List Char) :
    (BaseLetterTrie.add_from_vec_chars t v).depth = t.depth := by
  cases v with
  | nil => rfl
  | cons ch rest => rw [add_from_vec_chars_eq t (by simp)]; simp

@[simp] theorem add_from_vec_chars_is_word (t : Node) (v : List Char) :
    (BaseLetterTrie.add_from_vec_chars t v).is_word = t.is_word := by
  cases v with
  | nil => rfl
  | cons ch rest => rw [add_from_vec_chars_eq t (by simp)]; simp

@[simp] theorem add_from_vec_chars_is_frozen (t : Node) (v : List Char) :
    (BaseLetterTrie.add_from_vec_chars t v).is_frozen = t.is_frozen := by
  cases v with
  | nil => rfl
  | cons ch rest => rw [add_from_vec_chars_eq t (by simp)]; simp

@[simp] theorem load_continuous_nil (t : Node) :
    BaseLetterTrie.load_continuous t [] = t := rfl

theorem load_continuous_cons (t : Node) (v : List Char) (ws : List (List Char)) :
    BaseLetterTrie.load_continuous t (v :: ws) =
    BaseLetterTrie.load_continuous (BaseLetterTrie.add_from_vec_chars t v) ws := rfl

@[simp] theorem load_continuous_is_word (t : Node) (ws : List (List Char)) :
    (BaseLetterTrie.load_continuous t ws).is_word = t.is_word := by
  induction ws generalizing t with
  | nil => rfl
  | cons v ws ih => rw [load_continuous_cons, ih]; simp

@[simp] theorem load_continuous_c (t : Node) (ws : List (List Char)) :
    (BaseLetterTrie.load_continuous t ws).c = t.c := by
  induction ws generalizing t with
  | nil => rfl
  | cons v ws ih => rw [load_continuous_cons, ih]; simp

@[simp] theorem load_continuous_depth (t : Node) (ws : List (List Char)) :
    (BaseLetterTrie.load_continuous t ws).depth = t.depth := by
  induction ws generalizing t with
  | nil => rfl
  | cons v ws ih => rw [load_continuous_cons, ih]; simp

@[simp] theorem load_continuous_is_frozen (t : Node) (ws : List (List Char)) :
    (BaseLetterTrie.load_continuous t ws).is_frozen = t.is_frozen := by
  induction ws generalizing t with
  | nil => rfl
  | cons v ws ih => rw [load_continuous_cons, ih]; simp

@[simp] theorem to_fixed_node_is_word (n : Node) (path : List Char) :
    (n.to_fixed_node path).is_word = n.is_word := rfl

@[simp] theorem to_fixed_node_prefix_str (n : Node) (path : List Char) :
    (n.to_fixed_node path).prefix_str = String.mk path := rfl

/-! Recursive-versus-iterative query equivalences (claim C1). -/

theorem is_word_child_eq_loop_go (v : List Char) (hv : v ≠ []) :
    ∀ n : Node, n.is_word_child v = BaseLetterTrie.is_word_loop_go n v := by
  induction v with
  | nil => exact absurd rfl hv
  | cons ch rest ih =>
    intro n
    simp only [Node.is_word_child, BaseLetterTrie.is_word_loop_go]
    cases btreeGet ch n.children with
    | some child =>
      dsimp only
      by_cases hrest : rest = []
      · subst hrest
        simp [BaseLetterTrie.is_word_loop_go]
      · rw [if_neg (by simp [hrest])]
        exact ih hrest child
    | none => rfl

theorem find_loop_go_eq_filter (v : List Char) (hv : v ≠ []) :
    ∀ (n : Node) (path : List Char),
      BaseLetterTrie.find_loop_go n v path =
      (n.find_child v path).filter (fun fx => fx.is_word) := by
  induction v with
  | nil => exact absurd rfl hv
  | cons ch rest ih =>
    intro n path
    simp only [Node.find_child, BaseLetterTrie.find_loop_go]
    cases btreeGet ch n.children with
    | some child =>
      dsimp only
      by_cases hrest : rest = []
      · subst hrest
        cases hw : child.is_word
        · simp [BaseLetterTrie.find_loop_go, Option.filter, hw]
        · simp [BaseLetterTrie.find_loop_go, Option.filter, hw]
      · rw [if_neg (by simp [hrest])]
        exact ih hrest child (path ++ [ch])
    | none => rfl

/-! Claim theorems C1, C2, C9, C10. -/

/-- C1 (counterexample): the recursive and the iterative form of `find` do
not agree on every input.  In the trie holding only the word "ab", the
prefix "a" names an existing node that is not a word end: `find` returns a
snapshot of that node while `find_loop` returns `None` (its prefix-exhausted
arm additionally requires `is_word`). -/
theorem C1_find_loop_counterexample :
    BaseLetterTrie.find (BaseLetterTrie.add_word BaseLetterTrie.new ['a', 'b']) ['a'] ≠
    BaseLetterTrie.find_loop (BaseLetterTrie.add_word BaseLetterTrie.new ['a', 'b']) ['a'] := by
  decide

/-- C1 (amended): for every trie built from a word list and every prefix,
`is_word_recursive` and `is_word_loop` agree, and `find_loop` agrees with
`find` filtered through the terminal node's `is_word` flag: `find_loop`
returns exactly the `find` snapshot when that snapshot is a word end and
`None` otherwise. -/
theorem C1_recursive_loop_agreement (ws : List (List Char)) (v : List Char) :
    BaseLetterTrie.is_word_recursive
        (BaseLetterTrie.load_continuous BaseLetterTrie.new ws) v =
      BaseLetterTrie.is_word_loop
        (BaseLetterTrie.load_continuous BaseLetterTrie.new ws) v ∧
    BaseLetterTrie.find_loop
        (BaseLetterTrie.load_continuous BaseLetterTrie.new ws) v =
      (BaseLetterTrie.find
        (BaseLetterTrie.load_continuous BaseLetterTrie.new ws) v).filter
        (fun fx => fx.is_word) := by
  constructor
  · by_cases hv : v = []
    · subst hv
      show Node.is_word_child _ [] = BaseLetterTrie.is_word_loop_go _ []
      simp [Node.is_word_child, BaseLetterTrie.is_word_loop_go,
        BaseLetterTrie.new, Node.make]
    · exact is_word_child_eq_loop_go v hv _
  · by_cases hv : v = []
    · subst hv
      show BaseLetterTrie.find_loop_go _ [] [] = Option.filter _ (Node.find_child _ [] [])
      simp [Node.find_child, BaseLetterTrie.find_loop_go, Option.filter,
        BaseLetterTrie.new, Node.make]
    · exact find_loop_go_eq_filter v hv _ []

/-- C2 (code bug witnessed on the model): `add_word` on a frozen trie has no
error path at all — its only guard is a `debug_assert!` that release builds
compile out — so insertion into a frozen trie silently mutates it.  In the
frozen trie holding only "a": "b" is not a word before the insert and is a
word after it, the frozen root's cached `node_count` stays at the stale
value 2, and unfreezing reveals the live value 3.  No `FrozenTrieMutation`
(or any other error) is surfaced: the function's return type carries no
error channel. -/
theorem C2_frozen_insert_is_silent :
    (BaseLetterTrie.freeze (BaseLetterTrie.add_word BaseLetterTrie.new ['a'])).is_frozen
        = true ∧
    BaseLetterTrie.is_word_loop
        (BaseLetterTrie.freeze (BaseLetterTrie.add_word BaseLetterTrie.new ['a']))
        ['b'] = false ∧
    BaseLetterTrie.is_word_loop
        (BaseLetterTrie.add_word
          (BaseLetterTrie.freeze (BaseLetterTrie.add_word BaseLetterTrie.new ['a']))
          ['b']) ['b'] = true ∧
    (BaseLetterTrie.add_word
        (BaseLetterTrie.freeze (BaseLetterTrie.add_word BaseLetterTrie.new ['a']))
        ['b']).node_count = 2 ∧
    (BaseLetterTrie.unfreeze
        (BaseLetterTrie.add_word
          (BaseLetterTrie.freeze (BaseLetterTrie.add_word BaseLetterTrie.new ['a']))
          ['b'])).node_count = 3 := by
  decide

/-- C9: a freshly constructed trie (zero words inserted) has one node (the
root alone), zero words and height one; its root snapshot shows the sentinel
character, empty prefix, depth 0 and no children. -/
theorem C9_empty_trie_counts :
    BaseLetterTrie.new.node_count = 1 ∧
    BaseLetterTrie.new.word_count = 0 ∧
    BaseLetterTrie.new.height = 1 ∧
    BaseLetterTrie.new.to_fixed_node [] =
      { c := ' ', prefix_str := "", depth := 0, is_word := false,
        child_count := 0, node_count := 1, word_count := 0, height := 1 } := by
  decide

/-- C10: querying any trie built from a word list with the empty prefix
yields the no-match result in every variant — `find` and `find_loop` return
`None`, `is_word_recursive` and `is_word_loop` return `false` — and the
same holds for the `find_child`/`is_word_child` walk of any
`NoParentLetterTrie`. -/
theorem C10_empty_prefix_no_match (ws : List (List Char)) (np : NoParentLetterTrie) :
    BaseLetterTrie.find (BaseLetterTrie.load_continuous BaseLetterTrie.new ws) [] = none ∧
    BaseLetterTrie.find_loop
      (BaseLetterTrie.load_continuous BaseLetterTrie.new ws) [] = none ∧
    BaseLetterTrie.is_word_recursive
      (BaseLetterTrie.load_continuous BaseLetterTrie.new ws) [] = false ∧
    BaseLetterTrie.is_word_loop
      (BaseLetterTrie.load_continuous BaseLetterTrie.new ws) [] = false ∧
    NoParentLetterTrie.find np [] = none ∧
    NoParentLetterTrie.is_word_recursive np [] = false := by
  refine ⟨rfl, ?_, rfl, ?_, rfl, rfl⟩
  · show BaseLetterTrie.find_loop_go _ [] [] = none
    simp [BaseLetterTrie.find_loop_go, BaseLetterTrie.new, Node.make]
  · show BaseLetterTrie.is_word_loop_go _ [] = false
    simp [BaseLetterTrie.is_word_loop_go, BaseLetterTrie.new, Node.make]

/-! The spec's description of the query walk, and claims C6 and C8. -/

/-- Modelled from the spec: "walk children by successive characters of
`prefix`" — the node reached from `n` by following one child edge per
character of the prefix, or `none` as soon as the needed character has no
child.  This is the spec-side description of the walk, stated independently
of `find_child` so the two can be compared (claim C6). -/
def walkPath : Node → List Char → Option Node
  | n, [] => some n
  | n, ch :: rest =>
    match btreeGet ch n.children with
    | some child => walkPath child rest
    | none => none

theorem find_child_eq_walkPath (v : List Char) (hv : v ≠ []) :
    ∀ (n : Node) (path : List Char),
      n.find_child v path =
        (walkPath n v).map (fun m => m.to_fixed_node (path ++ v)) := by
  induction v with
  | nil => exact absurd rfl hv
  | cons ch rest ih =>
    intro n path
    simp only [Node.find_child, walkPath]
    cases btreeGet ch n.children with
    | some child =>
      dsimp only
      by_cases hrest : rest = []
      · subst hrest
        simp [walkPath]
      · rw [if_neg (by simp [hrest]), ih hrest child (path ++ [ch])]
        simp
    | none => rfl

theorem is_word_child_eq_walkPath (v : List Char) (hv : v ≠ []) :
    ∀ n : Node,
      n.is_word_child v = ((walkPath n v).map Node.is_word).getD false := by
  induction v with
  | nil => exact absurd rfl hv
  | cons ch rest ih =>
    intro n
    simp only [Node.is_word_child, walkPath]
    cases btreeGet ch n.children with
    | some child =>
      dsimp only
      by_cases hrest : rest = []
      · subst hrest
        simp [walkPath]
      · rw [if_neg (by simp [hrest]), ih hrest child]
    | none => rfl

theorem childUpdate_is_word_nil (o : Option Node) (d : Nat) (ch : Char) :
    (childUpdate o d ch []).is_word = true := by
  cases o with
  | some child => simp [childUpdate]
  | none => simp [childUpdate, Node.make]

theorem walkPath_setWord (n : Node) (v : List Char) (hv : v ≠ []) :
    walkPath n.setWord v = walkPath n v := by
  cases v with
  | nil => exact absurd rfl hv
  | cons ch rest => simp [walkPath]

theorem walkPath_one_char_self (v : List Char) (hv : v ≠ []) :
    ∀ t : Node, ∃ m,
      walkPath (BaseLetterTrie.add_from_vec_chars_one_char t v) v = some m ∧
      m.is_word = true := by
  induction v with
  | nil => exact absurd rfl hv
  | cons ch rest ih =>
    intro t
    rw [one_char_cons]
    by_cases hrest : rest = []
    · subst hrest
      refine ⟨childUpdate (btreeGet ch t.children) t.depth ch [], ?_, ?_⟩
      · simp [walkPath, btreeGet_insert_self]
      · exact childUpdate_is_word_nil _ _ _
    · have hstep :
          walkPath ((t.withChildren (btreeInsert ch
              (childUpdate (btreeGet ch t.children) t.depth ch rest) t.children)))
            (ch :: rest) =
          walkPath (childUpdate (btreeGet ch t.children) t.depth ch rest) rest := by
        simp [walkPath, btreeGet_insert_self]
      rw [hstep]
      cases ho : btreeGet ch t.children with
      | some child =>
        have : childUpdate (some child) t.depth ch rest =
            BaseLetterTrie.add_from_vec_chars_one_char child rest := by
          simp [childUpdate, hrest, List.isEmpty_iff]
        rw [this]
        exact ih hrest child
      | none =>
        have : childUpdate none t.depth ch rest =
            BaseLetterTrie.add_from_vec_chars_one_char
              (Node.make ch (t.depth + 1) rest.isEmpty) rest := by
          simp [childUpdate]
        rw [this]
        exact ih hrest _

theorem walkPath_is_word_mono (w : List Char) :
    ∀ (t : Node) (u : List Char) (m : Node),
      walkPath t w = some m → m.is_word = true →
      ∃ m', walkPath (BaseLetterTrie.add_from_vec_chars_one_char t u) w = some m' ∧
        m'.is_word = true := by
  induction w with
  | nil =>
    intro t u m hm hw
    simp only [walkPath, Option.some.injEq] at hm
    subst hm
    exact ⟨BaseLetterTrie.add_from_vec_chars_one_char t u, rfl, by simp [hw]⟩
  | cons ch rest ih =>
    intro t u m hm hw
    simp only [walkPath] at hm
    cases ho : btreeGet ch t.children with
    | none => rw [ho] at hm; exact absurd hm (by simp)
    | some child =>
      rw [ho] at hm
      dsimp only at hm
      cases u with
      | nil => exact ⟨m, by simp [walkPath, ho, hm], hw⟩
      | cons c' us =>
        rw [one_char_cons]
        by_cases hcc : ch = c'
        · subst hcc
          have hget : btreeGet ch ((t.withChildren (btreeInsert ch
              (childUpdate (btreeGet ch t.children) t.depth ch us) t.children))).children =
              some (childUpdate (btreeGet ch t.children) t.depth ch us) := by
            simp [btreeGet_insert_self]
          simp only [walkPath, hget]
          rw [ho]
          by_cases hus : us = []
          · subst hus
            simp only [childUpdate, List.isEmpty_nil, if_true, one_char_nil]
            by_cases hrest : rest = []
            · subst hrest
              simp only [walkPath, Option.some.injEq] at hm ⊢
              exact ⟨child.setWord, rfl, by simp⟩
            · rw [walkPath_setWord child rest hrest]
              exact ⟨m, hm, hw⟩
          · have : childUpdate (some child) t.depth ch us =
                BaseLetterTrie.add_from_vec_chars_one_char child us := by
              simp [childUpdate, hus, List.isEmpty_iff]
            rw [this]
            exact ih child us m hm hw
        · have hget : btreeGet ch ((t.withChildren (btreeInsert c'
              (childUpdate (btreeGet c' t.children) t.depth c' us) t.children))).children =
              btreeGet ch t.children := by
            simp [btreeGet_insert_ne hcc]
          simp only [walkPath, hget, ho]
          exact ⟨m, hm, hw⟩

theorem walkPath_is_word_load (vs : List (List Char)) :
    ∀ (t : Node) (w : List Char) (m : Node),
      walkPath t w = some m → m.is_word = true →
      ∃ m', walkPath (BaseLetterTrie.load_continuous t vs) w = some m' ∧
        m'.is_word = true := by
  induction vs with
  | nil => exact fun t w m hm hw => ⟨m, hm, hw⟩
  | cons v vs ih =>
    intro t w m hm hw
    rw [load_continuous_cons]
    cases v with
    | nil => exact ih t w m hm hw
    | cons c cs =>
      rw [add_from_vec_chars_eq t (by simp)]
      obtain ⟨m', hm', hw'⟩ :=
        walkPath_is_word_mono w t (c :: cs) m hm hw
      exact ih _ w m' hm' hw'

theorem walkPath_load_mem {ws : List (List Char)} {w : List Char}
    (hmem : w ∈ ws) (hw : w ≠ []) :
    ∃ m, walkPath (BaseLetterTrie.load_continuous BaseLetterTrie.new ws) w = some m ∧
      m.is_word = true := by
  obtain ⟨l₁, l₂, rfl⟩ := List.append_of_mem hmem
  have hsplit : BaseLetterTrie.load_continuous BaseLetterTrie.new (l₁ ++ w :: l₂) =
      BaseLetterTrie.load_continuous
        (BaseLetterTrie.add_from_vec_chars
          (BaseLetterTrie.load_continuous BaseLetterTrie.new l₁) w) l₂ := by
    simp [BaseLetterTrie.load_continuous, List.foldl_append]
  rw [hsplit, add_from_vec_chars_eq _ hw]
  obtain ⟨m, hm, hmw⟩ := walkPath_one_char_self w hw
    (BaseLetterTrie.load_continuous BaseLetterTrie.new l₁)
  exact walkPath_is_word_load l₂ _ w m hm hmw

/-- C6 (counterexample): the claim as stated fails on the empty prefix.
Walking the children by the successive characters of the empty prefix
consumes the whole prefix (there is nothing to consume) and ends at the
root, yet `find` returns `None` rather than a snapshot of the root. -/
theorem C6_empty_prefix_counterexample :
    walkPath (BaseLetterTrie.add_word BaseLetterTrie.new ['a']) [] =
      some (BaseLetterTrie.add_word BaseLetterTrie.new ['a']) ∧
    BaseLetterTrie.find (BaseLetterTrie.add_word BaseLetterTrie.new ['a']) [] =
      none :=
  ⟨rfl, rfl⟩

/-- C6 (amended): for every trie and every nonempty prefix, `find` returns
exactly the snapshot of the node reached by walking children along the
successive characters of the prefix (with the snapshot's reconstructed
prefix equal to the consumed prefix), and `None` exactly when at some step
the needed character has no child; it never signals an error (the return
type has no error case).  On the empty prefix `find` returns `None` (claim
C10). -/
theorem C6_find_walk_characterization (t : Node) (v : List Char) (hv : v ≠ []) :
    BaseLetterTrie.find t v = (walkPath t v).map (fun m => m.to_fixed_node v) := by
  have h := find_child_eq_walkPath v hv t []
  simpa [BaseLetterTrie.find] using h

theorem C6_find_walk_characterization_witness :
    (['a'] : List Char) ≠ [] ∧
    BaseLetterTrie.find (BaseLetterTrie.add_word BaseLetterTrie.new ['a', 'b']) ['a'] =
      (walkPath (BaseLetterTrie.add_word BaseLetterTrie.new ['a', 'b']) ['a']).map
        (fun m => m.to_fixed_node ['a']) :=
  ⟨by decide,
   C6_find_walk_characterization
     (BaseLetterTrie.add_word BaseLetterTrie.new ['a', 'b']) ['a'] (by decide)⟩

/-- C8: for every word of a word list inserted into a trie (words are
nonempty character vectors; the loaders drop empty lines), `find` on that
word returns a snapshot whose reconstructed prefix is exactly the word and
whose `is_word` flag is set, and `is_word_recursive` returns `true`. -/
theorem C8_roundtrip (ws : List (List Char)) (w : List Char)
    (hmem : w ∈ ws) (hw : w ≠ []) :
    (∃ fx, BaseLetterTrie.find
        (BaseLetterTrie.load_continuous BaseLetterTrie.new ws) w = some fx ∧
      fx.prefix_str = String.mk w ∧ fx.is_word = true) ∧
    BaseLetterTrie.is_word_recursive
      (BaseLetterTrie.load_continuous BaseLetterTrie.new ws) w = true := by
  obtain ⟨m, hm, hmw⟩ := walkPath_load_mem hmem hw
  constructor
  · refine ⟨m.to_fixed_node w, ?_, rfl, by simp [hmw]⟩
    show Node.find_child _ w [] = _
    rw [find_child_eq_walkPath w hw _ [], hm]
    rfl
  · show Node.is_word_child _ w = true
    rw [is_word_child_eq_walkPath w hw, hm]
    simpa using hmw

theorem C8_roundtrip_witness :
    (['a', 'b'] : List Char) ∈ [['a', 'b'], ['a']] ∧ (['a', 'b'] : List Char) ≠ [] ∧
    ((∃ fx, BaseLetterTrie.find
        (BaseLetterTrie.load_continuous BaseLetterTrie.new [['a', 'b'], ['a']])
        ['a', 'b'] = some fx ∧
      fx.prefix_str = String.mk ['a', 'b'] ∧ fx.is_word = true) ∧
    BaseLetterTrie.is_word_recursive
      (BaseLetterTrie.load_continuous BaseLetterTrie.new [['a', 'b'], ['a']])
      ['a', 'b'] = true) :=
  ⟨by decide, by decide,
   C8_roundtrip [['a', 'b'], ['a']] ['a', 'b'] (by decide) (by decide)⟩

/-! Idempotence of insertion (claim C7). -/

theorem one_char_idem (v : List Char) :
    ∀ t : Node,
      BaseLetterTrie.add_from_vec_chars_one_char
        (BaseLetterTrie.add_from_vec_chars_one_char t v) v =
      BaseLetterTrie.add_from_vec_chars_one_char t v := by
  induction v with
  | nil => intro t; rfl
  | cons ch rest ih =>
    intro t
    rw [one_char_cons t ch rest]
    rw [one_char_cons _ ch rest]
    rw [Node.withChildren_withChildren]
    congr 1
    rw [Node.children_withChildren, btreeGet_insert_self, Node.depth_withChildren]
    rw [btreeInsert_insert_self]
    congr 1
    by_cases hrest : rest = []
    · subst hrest
      simp only [childUpdate, List.isEmpty_nil, if_true, one_char_nil]
      cases ho : btreeGet ch t.children with
      | some child =>
        dsimp only
        exact Node.setWord_of_is_word _ (by simp)
      | none =>
        dsimp only
        exact Node.setWord_of_is_word _ (by simp [Node.make])
    · have hne : rest.isEmpty = false := by simp [hrest]
      simp only [childUpdate, hne, Bool.false_eq_true, if_false]
      cases ho : btreeGet ch t.children with
      | some child => dsimp only; exact ih child
      | none => dsimp only; exact ih _

theorem add_from_vec_chars_idem (t : Node) (v : List Char) :
    BaseLetterTrie.add_from_vec_chars (BaseLetterTrie.add_from_vec_chars t v) v =
    BaseLetterTrie.add_from_vec_chars t v := by
  cases v with
  | nil => rfl
  | cons ch rest =>
    rw [add_from_vec_chars_eq t (by simp), add_from_vec_chars_eq _ (by simp)]
    exact one_char_idem (ch :: rest) t

theorem add_word_idem (t : Node) (v : List Char) :
    BaseLetterTrie.add_word (BaseLetterTrie.add_word t v) v =
    BaseLetterTrie.add_word t v := by
  cases v with
  | nil => rfl
  | cons ch rest =>
    simp only [BaseLetterTrie.add_word, List.isEmpty_cons, Bool.false_eq_true, if_false]
    exact add_from_vec_chars_idem t (ch :: rest)

/-- Insert the same word `n` times in a row (the N-fold repetition of
`add_word` that claim C7 talks about). -/
def addWordTimes (t : Node) (v : List Char) : Nat → Node
  | 0 => t
  | n + 1 => BaseLetterTrie.add_word (addWordTimes t v n) v

theorem addWordTimes_eq_one (t : Node) (v : List Char) :
    ∀ n : Nat, 1 ≤ n → addWordTimes t v n = BaseLetterTrie.add_word t v := by
  intro n
  induction n with
  | zero => intro h; exact absurd h (by simp)
  | succ k ih =>
    intro _
    cases Nat.eq_zero_or_pos k with
    | inl hk =>
      subst hk
      rfl
    | inr hk =>
      show BaseLetterTrie.add_word (addWordTimes t v k) v = _
      rw [ih hk]
      exact add_word_idem t v

/-- C7: insertion is idempotent.  For every trie, every word and every
`N > 1`, inserting the word `N` times yields literally the same tree (the
same children maps, word flags and every other field at every node) as
inserting it once — in particular the same `node_count` and `word_count`;
repeated insertion creates no nodes and alters no counts. -/
theorem C7_insert_idempotent (t : Node) (v : List Char) (n : Nat) (hn : 1 < n) :
    addWordTimes t v n = BaseLetterTrie.add_word t v ∧
    (addWordTimes t v n).node_count = (BaseLetterTrie.add_word t v).node_count ∧
    (addWordTimes t v n).word_count = (BaseLetterTrie.add_word t v).word_count := by
  have h := addWordTimes_eq_one t v n (Nat.le_of_lt hn)
  exact ⟨h, by rw [h], by rw [h]⟩

theorem C7_insert_idempotent_witness :
    1 < 3 ∧
    (addWordTimes BaseLetterTrie.new ['a', 'b'] 3 =
      BaseLetterTrie.add_word BaseLetterTrie.new ['a', 'b'] ∧
    (addWordTimes BaseLetterTrie.new ['a', 'b'] 3).node_count =
      (BaseLetterTrie.add_word BaseLetterTrie.new ['a', 'b']).node_count ∧
    (addWordTimes BaseLetterTrie.new ['a', 'b'] 3).word_count =
      (BaseLetterTrie.add_word BaseLetterTrie.new ['a', 'b']).word_count) :=
  ⟨by decide, C7_insert_idempotent BaseLetterTrie.new ['a', 'b'] 3 (by decide)⟩

/-! Merge semantics on colliding first-level children (claim C3). -/

theorem mergeChildren_get (c : Char) :
    ∀ (l acc : List (Char × Node)),
      (l.map Prod.fst).Nodup → (∀ p ∈ l, p.2.c = p.1) →
      btreeGet c (mergeChildren acc l) =
        match btreeGet c l with
        | some n => some n
        | none => btreeGet c acc := by
  intro l
  induction l with
  | nil => intro acc _ _; rfl
  | cons p rest ih =>
    intro acc hnd hcons
    obtain ⟨k, n⟩ := p
    have hk : n.c = k := hcons (k, n) (by simp)
    have hnd0 : k ∉ rest.map Prod.fst ∧ (rest.map Prod.fst).Nodup := by
      rw [List.map_cons] at hnd
      exact List.nodup_cons.mp hnd
    have hnd' : (rest.map Prod.fst).Nodup := hnd0.2
    have hknot : k ∉ rest.map Prod.fst := hnd0.1
    have hcons' : ∀ p ∈ rest, p.2.c = p.1 := fun p hp => hcons p (by simp [hp])
    show btreeGet c (mergeChildren (btreeInsert n.c n acc) rest) = _
    rw [hk, ih (btreeInsert k n acc) hnd' hcons']
    by_cases hck : c = k
    · subst hck
      rw [btreeGet_eq_none_of_not_mem hknot]
      simp [btreeGet, btreeGet_insert_self]
    · have : btreeGet c ((k, n) :: rest) = btreeGet c rest := by simp [btreeGet, hck]
      rw [this, btreeGet_insert_ne hck]

/-- C3 (counterexample): a first-level key collision during `merge` does not
fail and is resolved by silently overwriting the target root's child.
Merging the sub-trie {"ac"} into a target holding {"ab"} replaces the
target's 'a' child by the sub-trie's 'a' child wholesale: afterwards "ab"
is no longer a word of the target while "ac" is, and no error of any kind
is reported (merge returns only the updated trie). -/
theorem C3_merge_collision_counterexample :
    btreeGet 'a' (BaseLetterTrie.merge
        (BaseLetterTrie.add_word BaseLetterTrie.new ['a', 'b'])
        (BaseLetterTrie.add_word BaseLetterTrie.new ['a', 'c'])).children =
      btreeGet 'a'
        (BaseLetterTrie.add_word BaseLetterTrie.new ['a', 'c']).children ∧
    BaseLetterTrie.is_word_recursive
      (BaseLetterTrie.merge
        (BaseLetterTrie.add_word BaseLetterTrie.new ['a', 'b'])
        (BaseLetterTrie.add_word BaseLetterTrie.new ['a', 'c'])) ['a', 'b'] = false ∧
    BaseLetterTrie.is_word_recursive
      (BaseLetterTrie.add_word BaseLetterTrie.new ['a', 'b']) ['a', 'b'] = true ∧
    BaseLetterTrie.is_word_recursive
      (BaseLetterTrie.merge
        (BaseLetterTrie.add_word BaseLetterTrie.new ['a', 'b'])
        (BaseLetterTrie.add_word BaseLetterTrie.new ['a', 'c'])) ['a', 'c'] = true :=
  ⟨rfl, by decide, by decide, by decide⟩

/-- C3 (amended): `merge` never fails; a first-level child of the sub-trie's
root whose character collides with an existing child of the target root
silently replaces that child in the target root's children map (`BTreeMap::
insert` semantics), and non-colliding children are added alongside the
target's existing ones.  (Hypotheses: the sub-trie root's children map has
distinct keys, each being the child's own character — true of every
`BTreeMap` whose entries were inserted under the child's character, as all
the library's constructors do.) -/
theorem C3_merge_overwrites (t other : Node) (c : Char)
    (hkeys : (other.children.map Prod.fst).Nodup)
    (hcons : ∀ p ∈ other.children, p.2.c = p.1) :
    btreeGet c (BaseLetterTrie.merge t other).children =
      match btreeGet c other.children with
      | some n => some n
      | none => btreeGet c t.children := by
  show btreeGet c ((t.withChildren (mergeChildren t.children other.children)).children) = _
  rw [Node.children_withChildren]
  exact mergeChildren_get c other.children t.children hkeys hcons

theorem C3_merge_overwrites_witness :
    (((BaseLetterTrie.add_word BaseLetterTrie.new ['a', 'c']).children.map
        Prod.fst).Nodup ∧
      (∀ p ∈ (BaseLetterTrie.add_word BaseLetterTrie.new ['a', 'c']).children,
        p.2.c = p.1)) ∧
    btreeGet 'a' (BaseLetterTrie.merge
        (BaseLetterTrie.add_word BaseLetterTrie.new ['a', 'b'])
        (BaseLetterTrie.add_word BaseLetterTrie.new ['a', 'c'])).children =
      match btreeGet 'a'
          (BaseLetterTrie.add_word BaseLetterTrie.new ['a', 'c']).children with
      | some n => some n
      | none => btreeGet 'a'
          (BaseLetterTrie.add_word BaseLetterTrie.new ['a', 'b']).children :=
  ⟨⟨by decide, by decide⟩,
   C3_merge_overwrites
     (BaseLetterTrie.add_word BaseLetterTrie.new ['a', 'b'])
     (BaseLetterTrie.add_word BaseLetterTrie.new ['a', 'c'])
     'a' (by decide) (by decide)⟩

/-! Freeze / unfreeze equivalence (claim C4). -/

mutual

/-- A node in the state every unfrozen trie reachable through the library's
API is in: not frozen, no cached aggregates, and the same hereditarily.
Freshly built tries are pristine (`pristine_load_continuous`), and
`unfreeze` returns a frozen pristine trie to this state. -/
def Node.pristine : Node → Bool
  | .mk _ _ _ froz nc wc ht ch =>
    !froz && nc.isNone && wc.isNone && ht.isNone && pristineChildren ch

/-- The children-map component of `Node.pristine`. -/
def pristineChildren : List (Char × Node) → Bool
  | [] => true
  | (_, n) :: t => n.pristine && pristineChildren t

end

theorem pristine_mk {c d w froz nc wc ht ch}
    (h : (Node.mk c d w froz nc wc ht ch).pristine = true) :
    froz = false ∧ nc = none ∧ wc = none ∧ ht = none ∧
    pristineChildren ch = true := by
  simp only [Node.pristine, Bool.and_eq_true, Bool.not_eq_true', Option.isNone_iff_eq_none]
    at h
  exact ⟨h.1.1.1.1, h.1.1.1.2, h.1.1.2, h.1.2, h.2⟩

theorem freezeChildren_spec (ch : List (Char × Node))
    (ih : ∀ p ∈ ch, p.2.pristine = true →
      p.2.freeze.is_frozen = true ∧
      p.2.freeze.node_count_cache = some p.2.node_count ∧
      p.2.freeze.word_count_cache = some p.2.word_count ∧
      p.2.freeze.height_cache = some p.2.height ∧
      p.2.freeze.unfreeze = p.2)
    (hp : pristineChildren ch = true) :
    sumNodeCaches (freezeChildren ch) = nodeCountChildren ch ∧
    sumWordCaches (freezeChildren ch) = wordCountChildren ch ∧
    maxHeightCaches (freezeChildren ch) = maxHeightChildren ch ∧
    unfreezeChildren (freezeChildren ch) = ch := by
  induction ch with
  | nil => exact ⟨rfl, rfl, rfl, rfl⟩
  | cons p t iht =>
    obtain ⟨c, n⟩ := p
    simp only [pristineChildren, Bool.and_eq_true] at hp
    obtain ⟨hn, ht'⟩ := hp
    have ihn := ih (c, n) (by simp) hn
    have iht' := iht (fun q hq => ih q (by simp [hq])) ht'
    refine ⟨?_, ?_, ?_, ?_⟩
    · show n.freeze.node_count_cache.getD 0 + sumNodeCaches (freezeChildren t) = _
      rw [ihn.2.1, iht'.1]
      rfl
    · show n.freeze.word_count_cache.getD 0 + sumWordCaches (freezeChildren t) = _
      rw [ihn.2.2.1, iht'.2.1]
      rfl
    · show max (n.freeze.height_cache.getD 0) (maxHeightCaches (freezeChildren t)) = _
      rw [ihn.2.2.2.1, iht'.2.2.1]
      rfl
    · show (c, n.freeze.unfreeze) :: unfreezeChildren (freezeChildren t) = _
      rw [ihn.2.2.2.2, iht'.2.2.2]

theorem freeze_spec (n : Node) :
    n.pristine = true →
      n.freeze.is_frozen = true ∧
      n.freeze.node_count_cache = some n.node_count ∧
      n.freeze.word_count_cache = some n.word_count ∧
      n.freeze.height_cache = some n.height ∧
      n.freeze.unfreeze = n := by
  induction n using Node.inductionOn with
  | h c d w froz nc wc ht ch ihm =>
    intro hp
    obtain ⟨hfroz, hnc, hwc, hht, hch⟩ := pristine_mk hp
    subst hfroz hnc hwc hht
    obtain ⟨h1, h2, h3, h4⟩ := freezeChildren_spec ch ihm hch
    have hfreeze : (Node.mk c d w false none none none ch).freeze =
        Node.mk c d w true
          (some (1 + sumNodeCaches (freezeChildren ch)))
          (some ((if w then 1 else 0) + sumWordCaches (freezeChildren ch)))
          (some (maxHeightCaches (freezeChildren ch) + 1))
          (freezeChildren ch) := by
      simp [Node.freeze]
    rw [hfreeze]
    refine ⟨rfl, ?_, ?_, ?_, ?_⟩
    · rw [Node.node_count_cache_mk, h1]
      simp [Node.node_count]
    · rw [Node.word_count_cache_mk, h2]
      simp [Node.word_count]
    · rw [Node.height_cache_mk, h3]
      simp [Node.height]
    · show Node.unfreeze _ = _
      simp only [Node.unfreeze, if_true]
      rw [h4]

theorem node_count_of_frozen (n : Node) (h : n.is_frozen = true) :
    n.node_count = n.node_count_cache.getD 0 := by
  cases n with
  | mk c d w froz nc wc ht ch =>
    simp only [Node.is_frozen_mk] at h
    simp [Node.node_count, h]

theorem word_count_of_frozen (n : Node) (h : n.is_frozen = true) :
    n.word_count = n.word_count_cache.getD 0 := by
  cases n with
  | mk c d w froz nc wc ht ch =>
    simp only [Node.is_frozen_mk] at h
    simp [Node.word_count, h]

theorem height_of_frozen (n : Node) (h : n.is_frozen = true) :
    n.height = n.height_cache.getD 0 := by
  cases n with
  | mk c d w froz nc wc ht ch =>
    simp only [Node.is_frozen_mk] at h
    simp [Node.height, h]

/-- C4: for every pristine trie (unfrozen with empty caches, the state of
every trie built through the API and of every trie after an `unfreeze`),
the triple {node_count, word_count, height} computed live before `freeze`
equals the cached triple read right after `freeze`, and `unfreeze` restores
the trie exactly, so the live recomputation after `unfreeze` again equals
both. -/
theorem C4_freeze_unfreeze_equivalence (t : Node) (hp : t.pristine = true) :
    (BaseLetterTrie.freeze t).node_count = t.node_count ∧
    (BaseLetterTrie.freeze t).word_count = t.word_count ∧
    (BaseLetterTrie.freeze t).height = t.height ∧
    BaseLetterTrie.unfreeze (BaseLetterTrie.freeze t) = t ∧
    (BaseLetterTrie.unfreeze (BaseLetterTrie.freeze t)).node_count = t.node_count ∧
    (BaseLetterTrie.unfreeze (BaseLetterTrie.freeze t)).word_count = t.word_count ∧
    (BaseLetterTrie.unfreeze (BaseLetterTrie.freeze t)).height = t.height := by
  obtain ⟨h1, h2, h3, h4, h5⟩ := freeze_spec t hp
  have hn : (BaseLetterTrie.freeze t).node_count = t.node_count := by
    rw [BaseLetterTrie.freeze, node_count_of_frozen _ h1, h2]
    rfl
  have hw : (BaseLetterTrie.freeze t).word_count = t.word_count := by
    rw [BaseLetterTrie.freeze, word_count_of_frozen _ h1, h3]
    rfl
  have hh : (BaseLetterTrie.freeze t).height = t.height := by
    rw [BaseLetterTrie.freeze, height_of_frozen _ h1, h4]
    rfl
  have hu : BaseLetterTrie.unfreeze (BaseLetterTrie.freeze t) = t := h5
  exact ⟨hn, hw, hh, hu, by rw [hu], by rw [hu], by rw [hu]⟩

theorem C4_freeze_unfreeze_equivalence_witness :
    (BaseLetterTrie.load_continuous BaseLetterTrie.new
        [['a', 'n'], ['a', 'n', 'd'], ['b']]).pristine = true ∧
    ((BaseLetterTrie.freeze (BaseLetterTrie.load_continuous BaseLetterTrie.new
        [['a', 'n'], ['a', 'n', 'd'], ['b']])).node_count =
      (BaseLetterTrie.load_continuous BaseLetterTrie.new
        [['a', 'n'], ['a', 'n', 'd'], ['b']]).node_count ∧
    (BaseLetterTrie.freeze (BaseLetterTrie.load_continuous BaseLetterTrie.new
        [['a', 'n'], ['a', 'n', 'd'], ['b']])).word_count =
      (BaseLetterTrie.load_continuous BaseLetterTrie.new
        [['a', 'n'], ['a', 'n', 'd'], ['b']]).word_count ∧
    (BaseLetterTrie.freeze (BaseLetterTrie.load_continuous BaseLetterTrie.new
        [['a', 'n'], ['a', 'n', 'd'], ['b']])).height =
      (BaseLetterTrie.load_continuous BaseLetterTrie.new
        [['a', 'n'], ['a', 'n', 'd'], ['b']]).height ∧
    BaseLetterTrie.unfreeze (BaseLetterTrie.freeze
        (BaseLetterTrie.load_continuous BaseLetterTrie.new
          [['a', 'n'], ['a', 'n', 'd'], ['b']])) =
      BaseLetterTrie.load_continuous BaseLetterTrie.new
        [['a', 'n'], ['a', 'n', 'd'], ['b']] ∧
    (BaseLetterTrie.unfreeze (BaseLetterTrie.freeze
        (BaseLetterTrie.load_continuous BaseLetterTrie.new
          [['a', 'n'], ['a', 'n', 'd'], ['b']]))).node_count =
      (BaseLetterTrie.load_continuous BaseLetterTrie.new
        [['a', 'n'], ['a', 'n', 'd'], ['b']]).node_count ∧
    (BaseLetterTrie.unfreeze (BaseLetterTrie.freeze
        (BaseLetterTrie.load_continuous BaseLetterTrie.new
          [['a', 'n'], ['a', 'n', 'd'], ['b']]))).word_count =
      (BaseLetterTrie.load_continuous BaseLetterTrie.new
        [['a', 'n'], ['a', 'n', 'd'], ['b']]).word_count ∧
    (BaseLetterTrie.unfreeze (BaseLetterTrie.freeze
        (BaseLetterTrie.load_continuous BaseLetterTrie.new
          [['a', 'n'], ['a', 'n', 'd'], ['b']]))).height =
      (BaseLetterTrie.load_continuous BaseLetterTrie.new
        [['a', 'n'], ['a', 'n', 'd'], ['b']]).height) :=
  ⟨by decide,
   C4_freeze_unfreeze_equivalence
     (BaseLetterTrie.load_continuous BaseLetterTrie.new
       [['a', 'n'], ['a', 'n', 'd'], ['b']]) (by decide)⟩

theorem pristine_setWord (n : Node) (h : n.pristine = true) :
    n.setWord.pristine = true := by
  cases n with
  | mk c d w froz nc wc ht ch =>
    obtain ⟨h1, h2, h3, h4, h5⟩ := pristine_mk h
    subst h1 h2 h3 h4
    simp [Node.setWord, Node.pristine, h5]

theorem pristine_make (c : Char) (d : Nat) (w : Bool) :
    (Node.make c d w).pristine = true := by
  simp [Node.make, Node.pristine, pristineChildren]

theorem pristineChildren_insert {l : List (Char × Node)} {x : Node} (c : Char)
    (hl : pristineChildren l = true) (hx : x.pristine = true) :
    pristineChildren (btreeInsert c x l) = true := by
  induction l with
  | nil => simp [btreeInsert, pristineChildren, hx]
  | cons p t ih =>
    obtain ⟨c', n'⟩ := p
    simp only [pristineChildren, Bool.and_eq_true] at hl
    by_cases hlt : c < c'
    · simp [btreeInsert, hlt, pristineChildren, hx, hl.1, hl.2]
    · by_cases heq : c = c'
      · simp [btreeInsert, hlt, heq, pristineChildren, hx, hl.2]
      · simp [btreeInsert, hlt, heq, pristineChildren, hl.1, ih hl.2]

theorem btreeGet_pristineChildren {l : List (Char × Node)} {c : Char} {x : Node}
    (hl : pristineChildren l = true) (hg : btreeGet c l = some x) :
    x.pristine = true := by
  induction l with
  | nil => exact absurd hg (by simp [btreeGet])
  | cons p t ih =>
    obtain ⟨c', n'⟩ := p
    simp only [pristineChildren, Bool.and_eq_true] at hl
    by_cases heq : c = c'
    · simp only [btreeGet, heq, if_true, Option.some.injEq] at hg
      exact hg ▸ hl.1
    · simp only [btreeGet, heq, if_false] at hg
      exact ih hl.2 hg

theorem pristine_withChildren (t : Node) (l : List (Char × Node))
    (ht : t.pristine = true) (hl : pristineChildren l = true) :
    (t.withChildren l).pristine = true := by
  cases t with
  | mk c d w froz nc wc ht' ch =>
    obtain ⟨h1, h2, h3, h4, _⟩ := pristine_mk ht
    subst h1 h2 h3 h4
    simp [Node.withChildren, Node.pristine, hl]

theorem one_char_pristine (v : List Char) :
    ∀ t : Node, t.pristine = true →
      (BaseLetterTrie.add_from_vec_chars_one_char t v).pristine = true := by
  induction v with
  | nil => exact fun t ht => ht
  | cons ch rest ih =>
    intro t ht
    rw [one_char_cons]
    have hch : pristineChildren t.children = true := by
      cases t with
      | mk c d w froz nc wc ht' ch' => exact (pristine_mk ht).2.2.2.2
    refine pristine_withChildren t _ ht (pristineChildren_insert ch hch ?_)
    cases ho : btreeGet ch t.children with
    | some child =>
      have hc : child.pristine = true := btreeGet_pristineChildren hch ho
      simp only [childUpdate]
      by_cases hrest : rest = []
      · subst hrest
        simp only [List.isEmpty_nil, if_true]
        exact ih _ (pristine_setWord child hc)
      · rw [if_neg (by simp [hrest])]
        exact ih _ hc
    | none =>
      simp only [childUpdate]
      exact ih _ (pristine_make _ _ _)

/-- Every trie built by loading a word list into a fresh trie is pristine:
unfrozen with empty caches throughout.  This is the state in which claim
C4's freeze/unfreeze equivalence applies. -/
theorem pristine_load_continuous (ws : List (List Char)) :
    ∀ t : Node, t.pristine = true →
      (BaseLetterTrie.load_continuous t ws).pristine = true := by
  induction ws with
  | nil => exact fun t ht => ht
  | cons v ws ih =>
    intro t ht
    rw [load_continuous_cons]
    refine ih _ ?_
    cases v with
    | nil => exact ht
    | cons c cs =>
      rw [add_from_vec_chars_eq t (by simp)]
      exact one_char_pristine (c :: cs) t ht

/-! Parallel partitioned build versus sequential build (claim C5). -/

theorem partitionGroupsGo_flatten :
    ∀ (rest : List (List Char)) (prev_c : Char) (this_vec : List (List Char)),
      (partitionGroupsGo prev_c this_vec rest).flatten = this_vec ++ rest := by
  intro rest
  induction rest with
  | nil =>
    intro prev_c this_vec
    simp only [partitionGroupsGo]
    by_cases h : this_vec.isEmpty
    · rw [if_pos h, List.isEmpty_iff.mp h]
      rfl
    · rw [if_neg h]
      simp
  | cons w rest ih =>
    intro prev_c this_vec
    simp only [partitionGroupsGo]
    by_cases hc : w.headD ' ' ≠ prev_c
    · rw [if_pos hc]
      by_cases hv : this_vec.isEmpty
      · rw [if_pos hv, ih, List.isEmpty_iff.mp hv]
        rfl
      · rw [if_neg hv, List.flatten_cons, ih]
        rfl
    · rw [if_neg hc, ih, List.append_assoc]
      rfl

theorem partitionGroups_flatten (lines : List (List Char)) :
    (partitionGroups lines).flatten = lines := by
  simpa using partitionGroupsGo_flatten lines ' ' []

theorem partitionGroupsGo_ne_nil :
    ∀ (rest : List (List Char)) (prev_c : Char) (this_vec : List (List Char)),
      ∀ g ∈ partitionGroupsGo prev_c this_vec rest, g ≠ [] := by
  intro rest
  induction rest with
  | nil =>
    intro prev_c this_vec g hg
    by_cases h : this_vec.isEmpty
    · simp [partitionGroupsGo, h] at hg
    · simp only [partitionGroupsGo, if_neg h, List.mem_singleton] at hg
      subst hg
      exact fun he => by simp [he] at h
  | cons w rest ih =>
    intro prev_c this_vec g hg
    by_cases hc : w.headD ' ' ≠ prev_c
    · by_cases hv : this_vec.isEmpty
      · simp only [partitionGroupsGo, if_pos hc, if_pos hv] at hg
        exact ih _ _ g hg
      · simp only [partitionGroupsGo, if_pos hc, if_neg hv, List.mem_cons] at hg
        cases hg with
        | inl h => subst h; exact fun he => by simp [he] at hv
        | inr h => exact ih _ _ g h
    · simp only [partitionGroupsGo, if_neg hc] at hg
      exact ih _ _ g hg

theorem partitionGroupsGo_uniform :
    ∀ (rest : List (List Char)) (prev_c : Char) (this_vec : List (List Char)),
      (∀ w ∈ this_vec, w.headD ' ' = prev_c) →
      ∀ g ∈ partitionGroupsGo prev_c this_vec rest,
        ∃ ch, ∀ w ∈ g, w.headD ' ' = ch := by
  intro rest
  induction rest with
  | nil =>
    intro prev_c this_vec hcur g hg
    by_cases h : this_vec.isEmpty
    · simp [partitionGroupsGo, h] at hg
    · simp only [partitionGroupsGo, if_neg h, List.mem_singleton] at hg
      subst hg
      exact ⟨prev_c, hcur⟩
  | cons w rest ih =>
    intro prev_c this_vec hcur g hg
    by_cases hc : w.headD ' ' ≠ prev_c
    · by_cases hv : this_vec.isEmpty
      · simp only [partitionGroupsGo, if_pos hc, if_pos hv] at hg
        exact ih _ _ (by simp) g hg
      · simp only [partitionGroupsGo, if_pos hc, if_neg hv, List.mem_cons] at hg
        cases hg with
        | inl h => subst h; exact ⟨prev_c, hcur⟩
        | inr h => exact ih _ _ (by simp) g h
    · simp only [partitionGroupsGo, if_neg hc] at hg
      push_neg at hc
      refine ih _ _ ?_ g hg
      intro u hu
      rcases List.mem_append.mp hu with h | h
      · exact hcur u h
      · rw [List.mem_singleton.mp h, hc]

theorem childUpdate_c (o : Option Node) (d : Nat) (ch : Char) (rest : List Char) :
    (childUpdate o d ch rest).c = match o with
      | some x => x.c
      | none => ch := by
  cases o with
  | some child =>
    simp only [childUpdate]
    by_cases hrest : rest = []
    · subst hrest; simp
    · rw [if_neg (by simp [hrest])]; simp
  | none => simp [childUpdate, Node.make]

@[simp] theorem one_char_node_count_cache (t : Node) (v : List Char) :
    (BaseLetterTrie.add_from_vec_chars_one_char t v).node_count_cache =
      t.node_count_cache := by
  cases v with
  | nil => rfl
  | cons ch rest => rw [one_char_cons]; simp

@[simp] theorem one_char_word_count_cache (t : Node) (v : List Char) :
    (BaseLetterTrie.add_from_vec_chars_one_char t v).word_count_cache =
      t.word_count_cache := by
  cases v with
  | nil => rfl
  | cons ch rest => rw [one_char_cons]; simp

@[simp] theorem one_char_height_cache (t : Node) (v : List Char) :
    (BaseLetterTrie.add_from_vec_chars_one_char t v).height_cache =
      t.height_cache := by
  cases v with
  | nil => rfl
  | cons ch rest => rw [one_char_cons]; simp

@[simp] theorem add_from_vec_chars_node_count_cache (t : Node) (v : List Char) :
    (BaseLetterTrie.add_from_vec_chars t v).node_count_cache = t.node_count_cache := by
  cases v with
  | nil => rfl
  | cons ch rest => rw [add_from_vec_chars_eq t (by simp)]; simp

@[simp] theorem add_from_vec_chars_word_count_cache (t : Node) (v : List Char) :
    (BaseLetterTrie.add_from_vec_chars t v).word_count_cache = t.word_count_cache := by
  cases v with
  | nil => rfl
  | cons ch rest => rw [add_from_vec_chars_eq t (by simp)]; simp

@[simp] theorem add_from_vec_chars_height_cache (t : Node) (v : List Char) :
    (BaseLetterTrie.add_from_vec_chars t v).height_cache = t.height_cache := by
  cases v with
  | nil => rfl
  | cons ch rest => rw [add_from_vec_chars_eq t (by simp)]; simp

@[simp] theorem load_continuous_node_count_cache (t : Node) (ws : List (List Char)) :
    (BaseLetterTrie.load_continuous t ws).node_count_cache = t.node_count_cache := by
  induction ws generalizing t with
  | nil => rfl
  | cons v ws ih => rw [load_continuous_cons, ih]; simp

@[simp] theorem load_continuous_word_count_cache (t : Node) (ws : List (List Char)) :
    (BaseLetterTrie.load_continuous t ws).word_count_cache = t.word_count_cache := by
  induction ws generalizing t with
  | nil => rfl
  | cons v ws ih => rw [load_continuous_cons, ih]; simp

@[simp] theorem load_continuous_height_cache (t : Node) (ws : List (List Char)) :
    (BaseLetterTrie.load_continuous t ws).height_cache = t.height_cache := by
  induction ws generalizing t with
  | nil => rfl
  | cons v ws ih => rw [load_continuous_cons, ih]; simp

theorem load_continuous_get_foreign (g : List (List Char)) (c : Char) :
    ∀ t : Node, (∀ w ∈ g, w ≠ []) → (∀ w ∈ g, w.headD ' ' ≠ c) →
      btreeGet c (BaseLetterTrie.load_continuous t g).children =
        btreeGet c t.children := by
  induction g with
  | nil => intro t _ _; rfl
  | cons w g ih =>
    intro t hne hfor
    obtain ⟨c0, cs, rfl⟩ : ∃ c0 cs, w = c0 :: cs := by
      cases w with
      | nil => exact absurd rfl (hne [] (by simp))
      | cons c0 cs => exact ⟨c0, cs, rfl⟩
    have hc0 : c0 ≠ c := by simpa using hfor (c0 :: cs) (by simp)
    rw [load_continuous_cons, ih _ (fun u hu => hne u (by simp [hu]))
      (fun u hu => hfor u (by simp [hu]))]
    rw [add_from_vec_chars_eq t (by simp), one_char_cons]
    simp [btreeGet_insert_ne (Ne.symm hc0)]

theorem load_group_subtree (g : List (List Char)) (ch : Char) :
    g ≠ [] → (∀ w ∈ g, w ≠ [] ∧ w.headD ' ' = ch) →
    ∀ t t' : Node, t.depth = t'.depth →
      btreeGet ch t.children = btreeGet ch t'.children →
      (∀ x, btreeGet ch t.children = some x → x.c = ch) →
      ∃ sub : Node, sub.c = ch ∧
        (BaseLetterTrie.load_continuous t g).children =
          btreeInsert ch sub t.children ∧
        (BaseLetterTrie.load_continuous t' g).children =
          btreeInsert ch sub t'.children := by
  induction g with
  | nil => intro hne; exact absurd rfl hne
  | cons w g' ih =>
    intro _ huni t t' hd hget hc
    obtain ⟨hwne, hwch⟩ := huni w (by simp)
    obtain ⟨c0, cs, rfl⟩ : ∃ c0 cs, w = c0 :: cs := by
      cases w with
      | nil => exact absurd rfl hwne
      | cons c0 cs => exact ⟨c0, cs, rfl⟩
    have hc0 : c0 = ch := by simpa using hwch
    subst hc0
    have hones : ∀ u : Node,
        BaseLetterTrie.load_continuous u ((c0 :: cs) :: g') =
        BaseLetterTrie.load_continuous
          (BaseLetterTrie.add_from_vec_chars_one_char u (c0 :: cs)) g' := by
      intro u
      rw [load_continuous_cons, add_from_vec_chars_eq u (by simp)]
    have hX : childUpdate (btreeGet c0 t'.children) t'.depth c0 cs =
        childUpdate (btreeGet c0 t.children) t.depth c0 cs := by
      rw [hget, hd]
    have hXc : (childUpdate (btreeGet c0 t.children) t.depth c0 cs).c = c0 := by
      rw [childUpdate_c]
      cases hgt : btreeGet c0 t.children with
      | some x => exact hc x hgt
      | none => rfl
    by_cases hg' : g' = []
    · subst hg'
      refine ⟨childUpdate (btreeGet c0 t.children) t.depth c0 cs, hXc, ?_, ?_⟩
      · rw [load_continuous_cons, add_from_vec_chars_eq t (by simp),
          load_continuous_nil, one_char_cons]
        simp
      · rw [load_continuous_cons, add_from_vec_chars_eq t' (by simp),
          load_continuous_nil, one_char_cons, hX]
        simp
    · obtain ⟨sub, hsubc, h1, h2⟩ := ih hg'
        (fun u hu => huni u (by simp [hu]))
        (BaseLetterTrie.add_from_vec_chars_one_char t (c0 :: cs))
        (BaseLetterTrie.add_from_vec_chars_one_char t' (c0 :: cs))
        (by simp [hd])
        (by rw [one_char_cons, one_char_cons, Node.children_withChildren,
              Node.children_withChildren, btreeGet_insert_self, btreeGet_insert_self, hX])
        (by intro x hx
            rw [one_char_cons, Node.children_withChildren, btreeGet_insert_self] at hx
            injection hx with h
            exact h ▸ hXc)
      refine ⟨sub, hsubc, ?_, ?_⟩
      · rw [hones t, h1, one_char_cons, Node.children_withChildren,
          btreeInsert_insert_self]
      · rw [hones t', h2, one_char_cons, Node.children_withChildren,
          btreeInsert_insert_self]

theorem merge_load_group (t : Node) (g : List (List Char)) (ch : Char)
    (hg : g ≠ []) (huni : ∀ w ∈ g, w ≠ [] ∧ w.headD ' ' = ch)
    (hd : t.depth = 0) (habs : btreeGet ch t.children = none) :
    BaseLetterTrie.merge t (BaseLetterTrie.create_thread_for_part_of_vec g) =
      BaseLetterTrie.load_continuous t g := by
  have hthread : BaseLetterTrie.create_thread_for_part_of_vec g =
      BaseLetterTrie.load_continuous BaseLetterTrie.new g := rfl
  obtain ⟨sub, hsubc, h1, h2⟩ := load_group_subtree g ch hg huni t BaseLetterTrie.new
    (by simp [hd, BaseLetterTrie.new, Node.make])
    (by rw [habs]; rfl)
    (fun x hx => absurd hx (by simp [habs]))
  have hnewch : (BaseLetterTrie.load_continuous BaseLetterTrie.new g).children =
      [(ch, sub)] := by
    rw [h2]
    rfl
  have hch2 : (BaseLetterTrie.merge t
      (BaseLetterTrie.create_thread_for_part_of_vec g)).children =
      btreeInsert ch sub t.children := by
    show (t.withChildren (mergeChildren t.children _)).children = _
    rw [Node.children_withChildren, hthread, hnewch]
    show btreeInsert sub.c sub t.children = _
    rw [hsubc]
  refine Node.ext_fields _ _ ?_ ?_ ?_ ?_ ?_ ?_ ?_ ?_
  · simp [BaseLetterTrie.merge]
  · simp [BaseLetterTrie.merge]
  · simp [BaseLetterTrie.merge]
  · simp [BaseLetterTrie.merge]
  · simp [BaseLetterTrie.merge]
  · simp [BaseLetterTrie.merge]
  · simp [BaseLetterTrie.merge]
  · rw [hch2, h1]

theorem foldl_merge_groups (gs : List (List (List Char))) :
    ∀ t : Node, t.depth = 0 →
      (∀ g ∈ gs, g ≠ []) →
      (∀ g ∈ gs, ∀ w ∈ g, w ≠ []) →
      (∀ g ∈ gs, ∃ ch, (∀ w ∈ g, w.headD ' ' = ch) ∧
        btreeGet ch t.children = none) →
      gs.Pairwise (fun g₁ g₂ => ∀ w₁ ∈ g₁, ∀ w₂ ∈ g₂,
        w₁.headD ' ' ≠ w₂.headD ' ') →
      (gs.map BaseLetterTrie.create_thread_for_part_of_vec).foldl
          BaseLetterTrie.merge t =
        BaseLetterTrie.load_continuous t gs.flatten := by
  induction gs with
  | nil => intro t _ _ _ _ _; rfl
  | cons g gs' ih =>
    intro t hd hne hwne hch hpw
    obtain ⟨ch, huch, habs⟩ := hch g (by simp)
    have hg : g ≠ [] := hne g (by simp)
    have huni : ∀ w ∈ g, w ≠ [] ∧ w.headD ' ' = ch :=
      fun w hw => ⟨hwne g (by simp) w hw, huch w hw⟩
    rw [List.map_cons, List.foldl_cons,
      merge_load_group t g ch hg huni hd habs, List.flatten_cons]
    have hsplit : BaseLetterTrie.load_continuous t (g ++ gs'.flatten) =
        BaseLetterTrie.load_continuous
          (BaseLetterTrie.load_continuous t g) gs'.flatten := by
      simp [BaseLetterTrie.load_continuous, List.foldl_append]
    rw [hsplit]
    obtain ⟨hpw1, hpw2⟩ := List.pairwise_cons.mp hpw
    apply ih (BaseLetterTrie.load_continuous t g)
    · simp [hd]
    · exact fun g' hg' => hne g' (by simp [hg'])
    · exact fun g' hg' => hwne g' (by simp [hg'])
    · intro g' hg'
      obtain ⟨ch', hu', ha'⟩ := hch g' (by simp [hg'])
      refine ⟨ch', hu', ?_⟩
      rw [load_continuous_get_foreign g ch' t (fun w hw => (huni w hw).1) ?_, ha']
      intro w hw
      obtain ⟨w2, hw2⟩ : ∃ w2, w2 ∈ g' := by
        cases g' with
        | nil => exact absurd rfl (hne [] (by simp [hg']))
        | cons a b => exact ⟨a, by simp⟩
      have := hpw1 g' hg' w hw w2 hw2
      rw [hu' w2 hw2] at this
      exact this
    · exact hpw2

/-- C5: building a trie from a word list via the partitioned path used by
the parallel loader (partition into runs of equal first characters, build
each partition as a standalone sub-trie from a fresh root, merge each
sub-trie's first-level children into the target root) produces exactly the
same trie as sequential insertion of the same words — hence the same
`node_count`, `word_count`, `height` and the same `find`/`is_word` answer
for every probe string.  Hypotheses: the lines are nonempty (the file layer
drops empty lines, and `vec_char[0]` requires it) and the partitions are
disjoint by first character — the claim's proviso, guaranteed when the
input is sorted by first character.  The channel delivers sub-tries in
nondeterministic order; the model merges them in spawn order. -/
theorem C5_parallel_build_equals_sequential (lines : List (List Char))
    (hne : ∀ w ∈ lines, w ≠ [])
    (hdisj : (partitionGroups lines).Pairwise
      (fun g₁ g₂ => ∀ w₁ ∈ g₁, ∀ w₂ ∈ g₂, w₁.headD ' ' ≠ w₂.headD ' ')) :
    BaseLetterTrie.load_continuous_parallel_sorted BaseLetterTrie.new lines =
      BaseLetterTrie.load_continuous BaseLetterTrie.new lines ∧
    (BaseLetterTrie.load_continuous_parallel_sorted
        BaseLetterTrie.new lines).node_count =
      (BaseLetterTrie.load_continuous BaseLetterTrie.new lines).node_count ∧
    (BaseLetterTrie.load_continuous_parallel_sorted
        BaseLetterTrie.new lines).word_count =
      (BaseLetterTrie.load_continuous BaseLetterTrie.new lines).word_count ∧
    (BaseLetterTrie.load_continuous_parallel_sorted
        BaseLetterTrie.new lines).height =
      (BaseLetterTrie.load_continuous BaseLetterTrie.new lines).height ∧
    ∀ v : List Char,
      BaseLetterTrie.find
          (BaseLetterTrie.load_continuous_parallel_sorted
            BaseLetterTrie.new lines) v =
        BaseLetterTrie.find
          (BaseLetterTrie.load_continuous BaseLetterTrie.new lines) v ∧
      BaseLetterTrie.is_word_recursive
          (BaseLetterTrie.load_continuous_parallel_sorted
            BaseLetterTrie.new lines) v =
        BaseLetterTrie.is_word_recursive
          (BaseLetterTrie.load_continuous BaseLetterTrie.new lines) v ∧
      BaseLetterTrie.is_word_loop
          (BaseLetterTrie.load_continuous_parallel_sorted
            BaseLetterTrie.new lines) v =
        BaseLetterTrie.is_word_loop
          (BaseLetterTrie.load_continuous BaseLetterTrie.new lines) v := by
  have hflat := partitionGroups_flatten lines
  have hmain : BaseLetterTrie.load_continuous_parallel_sorted
      BaseLetterTrie.new lines =
      BaseLetterTrie.load_continuous BaseLetterTrie.new lines := by
    have h := foldl_merge_groups (partitionGroups lines) BaseLetterTrie.new rfl
      (fun g hg => partitionGroupsGo_ne_nil lines ' ' [] g hg)
      (fun g hg w hw => hne w (by
        rw [← hflat]
        exact List.mem_flatten.mpr ⟨g, hg, hw⟩))
      (fun g hg => by
        obtain ⟨ch, hch⟩ :=
          partitionGroupsGo_uniform lines ' ' [] (by simp) g hg
        exact ⟨ch, hch, rfl⟩)
      hdisj
    rw [hflat] at h
    exact h
  exact ⟨hmain, by rw [hmain], by rw [hmain], by rw [hmain],
    fun v => ⟨by rw [hmain], by rw [hmain], by rw [hmain]⟩⟩

theorem C5_parallel_build_equals_sequential_witness :
    ((∀ w ∈ ([['a'], ['a', 'b'], ['b', 'c']] : List (List Char)), w ≠ []) ∧
      (partitionGroups [['a'], ['a', 'b'], ['b', 'c']]).Pairwise
        (fun g₁ g₂ => ∀ w₁ ∈ g₁, ∀ w₂ ∈ g₂, w₁.headD ' ' ≠ w₂.headD ' ')) ∧
    BaseLetterTrie.load_continuous_parallel_sorted BaseLetterTrie.new
        [['a'], ['a', 'b'], ['b', 'c']] =
      BaseLetterTrie.load_continuous BaseLetterTrie.new
        [['a'], ['a', 'b'], ['b', 'c']] :=
  ⟨⟨by decide, by decide⟩,
   (C5_parallel_build_equals_sequential [['a'], ['a', 'b'], ['b', 'c']]
     (by decide) (by decide)).1⟩
